import Mathlib

/-!
# The Separation Game — verification of the connection-finding core

A shallow embedding of the core of the repository (data loader graph
construction, BFS path finder, quiz puzzle generator, hint builder, guess
checking) together with proofs of the specification's claims about it.

Python dictionaries `Dict[int, Set[int]]` are embedded as association lists
`List (Nat × List Nat)`; a set's (unspecified) iteration order is made
explicit by the stored list, and all theorems quantify over every such
structure.  Machine integers are `Nat`/`Int`.  Python code that can raise is
embedded with `Option`/`Except`.
-/

namespace SepGame

/-- Embedding of `Dict[int, Set[int]]`: the teammate adjacency structure. -/
abbrev Graph := List (Nat × List Nat)

/-- `teammate_graph.get(current_id, [])` — neighbour lookup with `[]` default. -/
def graphGet (g : Graph) (n : Nat) : List Nat :=
  (List.lookup n g).getD []

/-- All node ids mentioned anywhere in the adjacency structure
(keys and members of the neighbour sets). -/
def graphNodes (g : Graph) : List Nat :=
  g.foldr (fun kv acc => kv.1 :: (kv.2 ++ acc)) []

/-!
## Path finder (`src/game/pathfinder.py`, `find_separation_path`)

The BFS body is split into the inner `for neighbor_id in ...` loop
(`expandNeighbors`) and the outer `while queue` loop (`bfsRun`).  The outer
loop is embedded with explicit fuel; `some r` means the loop terminated with
Python result `r`, `none` means the fuel ran out (proved unreachable for the
fuel chosen in `find_separation_path`).
-/

/-- The inner neighbour loop of `find_separation_path`:

    for neighbor_id in teammate_graph.get(current_id, []):
        if neighbor_id == end_id:
            return path + [end_id]
        if neighbor_id not in visited:
            visited.add(neighbor_id)
            queue.append((neighbor_id, path + [neighbor_id]))

`Sum.inl found` is the early `return`; `Sum.inr (visited, queue)` is the
state after the loop runs to completion. -/
def expandNeighbors (endId : Nat) (path : List Nat) :
    List Nat → List Nat → List (Nat × List Nat) →
    (List Nat) ⊕ (List Nat × List (Nat × List Nat))
  | [], visited, queue => Sum.inr (visited, queue)
  | n :: ns, visited, queue =>
    if n = endId then Sum.inl (path ++ [endId])
    else if n ∈ visited then expandNeighbors endId path ns visited queue
    else expandNeighbors endId path ns (n :: visited) (queue ++ [(n, path ++ [n])])

/-- The outer `while queue:` loop of `find_separation_path`, with fuel.
The queue holds `(current_id, path)` pairs exactly as in the source. -/
def bfsRun (g : Graph) (endId : Nat) :
    Nat → List (Nat × List Nat) → List Nat → Option (Option (List Nat))
  | 0, _, _ => none
  | _ + 1, [], _ => some none
  | fuel + 1, (c, p) :: rest, visited =>
    match expandNeighbors endId p (graphGet g c) visited rest with
    | Sum.inl found => some (some found)
    | Sum.inr (v', q') => bfsRun g endId fuel q' v'

/-- Fuel that provably suffices for `bfsRun` to exhaust the reachable
component: each loop iteration either visits a fresh node of
`startId :: graphNodes g` or shortens the queue. -/
def bfsFuel (g : Graph) (startId : Nat) : Nat :=
  2 * ((startId :: graphNodes g).dedup).length + 1

/-- `find_separation_path(start_id, end_id, teammate_graph)`:

    if start_id == end_id:
        return [start_id]
    queue = deque([(start_id, [start_id])])
    visited = {start_id}
    while queue: ...
    return None
-/
def find_separation_path (startId endId : Nat) (g : Graph) : Option (List Nat) :=
  if startId = endId then some [startId]
  else
    match bfsRun g endId (bfsFuel g startId) [(startId, [startId])] [startId] with
    | some r => r
    | none => none

/-!
## Specification-side graph notions

`isChain` says consecutive elements are adjacent (following the directed
edges the BFS actually follows); `isPathFrom g a b l` says `l` is a
nonempty chain from `a` to `b`.  The true graph distance between `a` and
`b` is the minimal `l.length - 1` over all such `l`.
-/

/-- Consecutive elements of the list are adjacent in the graph. -/
def isChain (g : Graph) : List Nat → Bool
  | [] => true
  | [_] => true
  | a :: b :: rest => (graphGet g a).contains b && isChain g (b :: rest)

/-- `l` is a path from `a` to `b` in `g` (nonempty, consecutive adjacency). -/
def isPathFrom (g : Graph) (a b : Nat) (l : List Nat) : Prop :=
  l.head? = some a ∧ l.getLast? = some b ∧ isChain g l = true

instance (g : Graph) (a b : Nat) (l : List Nat) : Decidable (isPathFrom g a b l) := by
  unfold isPathFrom; infer_instance

/-- The invariant maintained by the outer BFS loop of
`find_separation_path`, for a loop state of queue `q` and visited set `v`. -/
structure BfsInv (g : Graph) (startId endId : Nat)
    (q : List (Nat × List Nat)) (v : List Nat) : Prop where
  start_mem : startId ∈ v
  end_not_mem : endId ∉ v
  nodup_v : v.Nodup
  v_sub : ∀ x ∈ v, x ∈ startId :: graphNodes g
  q_sub : ∀ en ∈ q, en.1 ∈ v
  q_nodup : (q.map Prod.fst).Nodup
  q_paths : ∀ en ∈ q, isPathFrom g startId en.1 en.2 ∧ en.2.Nodup ∧ ∀ x ∈ en.2, x ∈ v
  layered : ∃ d q1 q2, q = q1 ++ q2 ∧ (∀ en ∈ q1, en.2.length = d) ∧
    (∀ en ∈ q2, en.2.length = d + 1)
  closed : ∀ m ∈ v, m ∉ q.map Prod.fst → ∀ x ∈ graphGet g m, x ∈ v ∧ x ≠ endId
  key : ∀ l, isPathFrom g startId endId l →
    ∃ en ∈ q, ∃ t, isPathFrom g en.1 endId t ∧ en.2.length + t.length ≤ l.length + 1

/-!
## Dataset loader (`src/data/loader.py`)

### Name cleaning

`_clean_player_name` applies `re.sub(r"\s*\(\d+\)$", "", str(name)).strip()`.
The character classes `\s` (and `str.strip`'s whitespace notion) and `\d`
are modelled over their ASCII ranges.  Python's `$` matches at the very end
of the string or just before one final newline; `re.sub` removes the
(leftmost-longest, hence maximal-whitespace) match, keeping such a final
newline.  The `pd.isna(name)` guard concerns missing values, which are
outside the `String` domain of the embedding.
-/

/-- ASCII whitespace, as matched by `\s` and stripped by `str.strip()`. -/
def isSpaceChar (c : Char) : Bool :=
  c == ' ' || c == '\t' || c == '\n' || c == '\r' || c == '\x0b' || c == '\x0c'

/-- ASCII digit, as matched by `\d`. -/
def isDigitChar (c : Char) : Bool :=
  '0' ≤ c && c ≤ '9'

/-- `str.strip()`: drop whitespace from both ends. -/
def pyStrip (s : String) : String :=
  String.mk (((s.data.dropWhile isSpaceChar).reverse.dropWhile isSpaceChar).reverse)

/-- Matcher for `\s*\(\d+\)` anchored at the end, working on the reversed
character list: `')'`, then one or more digits, then `'('`, then any
whitespace.  Returns the remaining (still reversed) prefix on success. -/
def stripParenRev (rcs : List Char) : Option (List Char) :=
  match rcs with
  | c :: rest =>
    if c = ')' then
      if (rest.takeWhile isDigitChar).isEmpty then none
      else
        match rest.dropWhile isDigitChar with
        | c2 :: rest3 => if c2 = '(' then some (rest3.dropWhile isSpaceChar) else none
        | [] => none
    else none
  | [] => none

/-- `re.sub(r"\s*\(\d+\)$", "", s)`: the match may end at the end of the
string, or just before one final newline (which is then kept). -/
def reSubTrailingParen (s : String) : String :=
  match s.data.reverse with
  | c :: rcs =>
    if c = '\n' then
      match stripParenRev rcs with
      | some pre => String.mk (pre.reverse ++ ['\n'])
      | none => s
    else
      match stripParenRev (c :: rcs) with
      | some pre => String.mk pre.reverse
      | none => s
  | [] => s

/-- `_clean_player_name(name)` for an actual string value. -/
def _clean_player_name (name : String) : String :=
  pyStrip (reSubTrailingParen name)

/-- Specification-side predicate: the name carries a trailing parenthesized
numeric disambiguator (possibly before one final newline), i.e. the
`re.sub` pattern of `_clean_player_name` matches. -/
def hasTrailingNumParen (s : String) : Bool :=
  match s.data.reverse with
  | c :: rcs =>
    if c = '\n' then (stripParenRev rcs).isSome else (stripParenRev (c :: rcs)).isSome
  | [] => false

/-!
### Teammate-graph construction

The loop of `load_data` over the teammate rows:

    for _, row in df_teammates.iterrows():
        player_id = row["player_id"]
        teammate_id = row["teammate_player_id"]
        teammate_graph[player_id].add(teammate_id)
        teammate_graph[teammate_id].add(player_id)
        minutes = row.get("minutes_played_with", None)
        goals = row.get("joint_goal_participation", None)
        stats = {"minutes": minutes, "goals": goals}
        teammate_stats[(player_id, teammate_id)] = stats
        teammate_stats[(teammate_id, player_id)] = stats

`defaultdict(set)` insertion is `graphAdd`; the stats dict is an
association list where assignment prepends and lookup takes the most
recent binding (last write wins). -/

/-- One teammate row of `player_teammates_played_with.csv`. -/
structure TeammateRow where
  player_id : Nat
  teammate_player_id : Nat
  minutes_played_with : Option Int
  joint_goal_participation : Option Int

/-- The stats payload `{"minutes": ..., "goals": ...}`. -/
structure StatRec where
  minutes : Option Int
  goals : Option Int
deriving DecidableEq

/-- `set.add`: membership-preserving insertion. -/
def setAdd (s : List Nat) (b : Nat) : List Nat :=
  if b ∈ s then s else s ++ [b]

/-- `teammate_graph[a].add(b)` on a `defaultdict(set)`. -/
def graphAdd : Graph → Nat → Nat → Graph
  | [], a, b => [(a, [b])]
  | (k, s) :: rest, a, b =>
    if k = a then (k, setAdd s b) :: rest else (k, s) :: graphAdd rest a b

/-- The teammate stats dict `Dict[Tuple[int, int], Dict]`. -/
abbrev StatsIndex := List ((Nat × Nat) × StatRec)

/-- Dict assignment `teammate_stats[k] = v` (last write wins). -/
def statsPut (st : StatsIndex) (k : Nat × Nat) (v : StatRec) : StatsIndex :=
  (k, v) :: st

/-- Dict lookup. -/
def statsGet (st : StatsIndex) (k : Nat × Nat) : Option StatRec :=
  List.lookup k st

/-- The body of the teammate-row loop of `load_data`. -/
def loadStep (acc : Graph × StatsIndex) (row : TeammateRow) : Graph × StatsIndex :=
  let g := graphAdd (graphAdd acc.1 row.player_id row.teammate_player_id)
    row.teammate_player_id row.player_id
  let stats : StatRec := ⟨row.minutes_played_with, row.joint_goal_participation⟩
  let st := statsPut (statsPut acc.2 (row.player_id, row.teammate_player_id) stats)
    (row.teammate_player_id, row.player_id) stats
  (g, st)

/-- The whole teammate-graph building loop of `load_data`. -/
def buildTeammateGraph (rows : List TeammateRow) : Graph × StatsIndex :=
  rows.foldl loadStep ([], [])

/-!
## Configuration (`src/config.py`) and quiz mode (`src/game/quiz.py`)
-/

/-- One entry of `DIFFICULTY_SETTINGS`. -/
structure DiffSetting where
  emoji : String
  description : String
  min_degrees : Nat
  max_degrees : Nat
  min_teammates : Nat

def easySetting : DiffSetting := ⟨"🟢", "2-3 degrees, popular players", 2, 3, 50⟩

def mediumSetting : DiffSetting := ⟨"🟡", "3-4 degrees, mixed fame", 3, 4, 20⟩

def hardSetting : DiffSetting := ⟨"🔴", "4-5 degrees, obscure players", 4, 5, 5⟩

def DIFFICULTY_SETTINGS : List (String × DiffSetting) :=
  [("Easy", easySetting), ("Medium", mediumSetting), ("Hard", hardSetting)]

def MAX_QUIZ_ATTEMPTS : Nat := 100

def MIN_ELIGIBLE_PLAYERS : Nat := 100

def MAX_HINT_LEVELS : Nat := 5

/-- `DIFFICULTY_SETTINGS.get(difficulty, DIFFICULTY_SETTINGS["Medium"])`. -/
def difficultySettings (difficulty : String) : DiffSetting :=
  (List.lookup difficulty DIFFICULTY_SETTINGS).getD mediumSetting

/-- Python truthiness of an `int | None` value: `None` and `0` are falsy. -/
def truthyId : Option Nat → Bool
  | none => false
  | some n => n != 0

/-- The eligibility filter of `get_random_quiz_players`.  The walrus
condition `(player_id := display_to_id.get(display_name)) and
len(teammate_graph.get(player_id, [])) >= min_teammates` short-circuits on
a falsy id. -/
def eligiblePlayers (display_names : List String)
    (display_to_id : String → Option Nat) (g : Graph) (min_teammates : Nat) :
    List String :=
  display_names.filter fun name =>
    match display_to_id name with
    | none => false
    | some pid => pid != 0 && min_teammates ≤ (graphGet g pid).length

/-- `random.choice(seq)`: the externally supplied draw index (modelling the
random source) is reduced mod the length; `none` is the `IndexError`
raised on an empty sequence. -/
def pyChoice {α : Type} (l : List α) (i : Nat) : Option α :=
  l[i % l.length]?

/-- The `for _ in range(MAX_QUIZ_ATTEMPTS)` sampling loop of
`get_random_quiz_players`.  `n` is the number of remaining attempts, `i`
the index of the current attempt into the draw stream; `Except.error ()`
models an uncaught `IndexError` from `random.choice` on an empty pool. -/
def quizAttemptLoop (display_to_id : String → Option Nat) (g : Graph)
    (pool : List String) (min_degrees max_degrees : Nat)
    (draws : Nat → Nat × Nat) :
    Nat → Nat → Except Unit (Option String × Option String × Option (List Nat))
  | 0, _ => Except.ok (none, none, none)
  | n + 1, i =>
    match pyChoice pool (draws i).1, pyChoice pool (draws i).2 with
    | some p1, some p2 =>
      if p1 = p2 then
        quizAttemptLoop display_to_id g pool min_degrees max_degrees draws n (i + 1)
      else if truthyId (display_to_id p1) && truthyId (display_to_id p2) then
        match find_separation_path ((display_to_id p1).getD 0)
            ((display_to_id p2).getD 0) g with
        | some path =>
          if path ≠ [] ∧ min_degrees ≤ path.length - 1 ∧ path.length - 1 ≤ max_degrees
          then Except.ok (some p1, some p2, some path)
          else quizAttemptLoop display_to_id g pool min_degrees max_degrees draws n (i + 1)
        | none => quizAttemptLoop display_to_id g pool min_degrees max_degrees draws n (i + 1)
      else quizAttemptLoop display_to_id g pool min_degrees max_degrees draws n (i + 1)
    | _, _ => Except.error ()

/-- `get_random_quiz_players(display_names, display_to_id, teammate_graph,
difficulty)`, with the random draws supplied explicitly. -/
def get_random_quiz_players (display_names : List String)
    (display_to_id : String → Option Nat) (teammate_graph : Graph)
    (difficulty : String) (draws : Nat → Nat × Nat) :
    Except Unit (Option String × Option String × Option (List Nat)) :=
  let settings := difficultySettings difficulty
  let eligible := eligiblePlayers display_names display_to_id teammate_graph
    settings.min_teammates
  let pool := if eligible.length < MIN_ELIGIBLE_PLAYERS then display_names else eligible
  quizAttemptLoop display_to_id teammate_graph pool settings.min_degrees
    settings.max_degrees draws MAX_QUIZ_ATTEMPTS 0

/-!
## Hints (`build_hint_text`)
-/

/-- One record of `player_details` (always fully populated by the loader). -/
structure PlayerDetail where
  name : String
  club : String
  nationality : String
  position : String
  country_of_birth : String
  age : Option Int

/-- `details.get("nationality", "Unknown")` where `details` is `{}` for an
unknown player and otherwise fully populated. -/
def detailNationality : Option PlayerDetail → String
  | some d => d.nationality
  | none => "Unknown"

def detailClub : Option PlayerDetail → String
  | some d => d.club
  | none => "Unknown"

def detailPosition : Option PlayerDetail → String
  | some d => d.position
  | none => "Unknown"

def detailAge : Option PlayerDetail → Option Int
  | some d => d.age
  | none => none

/-- The level-1 hint `f"📝 First letter: **{correct_name[0]}**, Name length:
**{len(correct_name)}** characters"` (only evaluated on nonempty names). -/
def level1Line (correct_name : String) : String :=
  "📝 First letter: **" ++ String.singleton correct_name.front
    ++ "**, Name length: **" ++ toString correct_name.length ++ "** characters"

def nationalityLine (details : Option PlayerDetail) : String :=
  "🌍 Nationality: **" ++ detailNationality details ++ "**"

def clubLine (details : Option PlayerDetail) : String :=
  "🏟️ Current Club: **" ++ detailClub details ++ "**"

def positionLine (details : Option PlayerDetail) : String :=
  "⚽ Position: **" ++ detailPosition details ++ "**"

/-- `f"🎂 Age: **{age}** years old" if age else "🎂 Age: **Unknown**"`;
`age` is falsy when `None` or `0`. -/
def ageLine (details : Option PlayerDetail) : String :=
  match detailAge details with
  | some a => if a ≠ 0 then "🎂 Age: **" ++ toString a ++ "** years old"
    else "🎂 Age: **Unknown**"
  | none => "🎂 Age: **Unknown**"

/-- The `hints` list built by the four `if hint_level >= k` appends. -/
def hintList (correct_name : String) (details : Option PlayerDetail)
    (hint_level : Nat) : List String :=
  [level1Line correct_name]
    ++ (if hint_level ≥ 1 then [nationalityLine details] else [])
    ++ (if hint_level ≥ 2 then [clubLine details] else [])
    ++ (if hint_level ≥ 3 then [positionLine details] else [])
    ++ (if hint_level ≥ 4 then [ageLine details] else [])

/-- `"<br>".join(hints)`. -/
def joinBr : List String → String
  | [] => ""
  | [x] => x
  | x :: xs => x ++ "<br>" ++ joinBr xs

/-- `build_hint_text(player_id, player_id_to_name, player_details,
hint_level)`; the result is `none` exactly when the resolved name is empty,
modelling the `IndexError` Python raises on `correct_name[0]`. -/
def build_hint_text (player_id : Nat) (player_id_to_name : Nat → Option String)
    (player_details : Nat → Option PlayerDetail) (hint_level : Nat) :
    Option (String × String) :=
  let correct_name := (player_id_to_name player_id).getD "Unknown"
  if correct_name = "" then none
  else
    let details := player_details player_id
    let hint_text := joinBr (hintList correct_name details hint_level)
    let remaining := MAX_HINT_LEVELS - (hint_level + 1)
    let hint_header := "💡 Hint " ++ toString (hint_level + 1) ++ "/"
      ++ toString MAX_HINT_LEVELS
    let hint_header := if remaining > 0 then
        hint_header ++ " (" ++ toString remaining ++ " more available)"
      else hint_header ++ " (all hints revealed!)"
    some (hint_header, hint_text)

/-- Specification-side: the attribute line revealed by the step from hint
level `l` to `l + 1`, in the fixed order nationality, club, position, age. -/
def hintLine (details : Option PlayerDetail) : Nat → String
  | 0 => nationalityLine details
  | 1 => clubLine details
  | 2 => positionLine details
  | 3 => ageLine details
  | _ => ""

/-!
## Quiz session state (`check_guess`)
-/

/-- The quiz-related Streamlit session state fields. -/
structure QuizState where
  quiz_active : Bool
  quiz_score : Nat
  quiz_total : Nat
  quiz_path : Option (List Nat)
  quiz_guessed : List Bool
  quiz_hints_used : Nat
  quiz_hint_level : List (Nat × Nat)
  quiz_player1 : Option String
  quiz_player2 : Option String
  quiz_difficulty : String

/-- `check_guess(guess_id, correct_id, position)` acting on the session
state; returns the Bool result together with the updated state.  (The
in-range list assignment of the matching branch is modelled by
`List.set`.) -/
def check_guess (guess_id correct_id : Nat) (position : Nat) (st : QuizState) :
    Bool × QuizState :=
  if guess_id = correct_id then
    (true, { st with
      quiz_guessed := st.quiz_guessed.set position true,
      quiz_score := st.quiz_score + 1 })
  else (false, st)

/-! ### Basic lemmas about graphs and chains -/

theorem mem_graphGet_mem_graphNodes (g : Graph) (n x : Nat) (hx : x ∈ graphGet g n) :
    x ∈ graphNodes g := by
  induction g with
  | nil => simp [graphGet, List.lookup] at hx
  | cons kv rest ih =>
    obtain ⟨k, s⟩ := kv
    simp only [graphGet, List.lookup] at hx
    by_cases hk : n = k
    · subst hk
      simp at hx
      simp [graphNodes, List.foldr]
      right; left; exact hx
    · have : (n == k) = false := by simp [hk]
      rw [this] at hx
      simp [graphNodes, List.foldr]
      have := ih hx
      simp [graphNodes] at this
      tauto

theorem isChain_cons_iff (g : Graph) (a b : Nat) (t : List Nat) :
    isChain g (a :: b :: t) = true ↔ b ∈ graphGet g a ∧ isChain g (b :: t) = true := by
  simp [isChain, List.elem_iff]

theorem isChain_append_single (g : Graph) (l : List Nat) (c b : Nat)
    (hc : isChain g l = true) (hl : l.getLast? = some c) (hb : b ∈ graphGet g c) :
    isChain g (l ++ [b]) = true := by
  induction l with
  | nil => simp at hl
  | cons x t ih =>
    cases t with
    | nil =>
      simp at hl; subst hl
      simpa [isChain, List.elem_iff] using hb
    | cons y t2 =>
      rw [isChain_cons_iff] at hc
      rw [List.getLast?_cons_cons] at hl
      have := ih hc.2 hl
      rw [List.cons_append, List.cons_append, isChain_cons_iff]
      rw [List.cons_append] at this
      exact ⟨hc.1, this⟩

theorem isPathFrom_single (g : Graph) (a : Nat) : isPathFrom g a a [a] := by
  refine ⟨rfl, rfl, ?_⟩; simp [isChain]

theorem isPathFrom_append_single (g : Graph) (s c b : Nat) (p : List Nat)
    (hp : isPathFrom g s c p) (hb : b ∈ graphGet g c) :
    isPathFrom g s b (p ++ [b]) := by
  obtain ⟨h1, h2, h3⟩ := hp
  refine ⟨?_, ?_, isChain_append_single g p c b h3 h2 hb⟩
  · cases p with
    | nil => simp at h1
    | cons x t => simpa using h1
  · simp

theorem isPathFrom_decompose (g : Graph) (a b : Nat) (l : List Nat)
    (hp : isPathFrom g a b l) (hne : a ≠ b) :
    ∃ m t, l = a :: m :: t ∧ m ∈ graphGet g a ∧ isPathFrom g m b (m :: t) := by
  obtain ⟨h1, h2, h3⟩ := hp
  cases l with
  | nil => simp at h1
  | cons x t =>
    simp at h1; subst h1
    cases t with
    | nil => simp at h2; exact absurd h2 hne
    | cons m t2 =>
      rw [isChain_cons_iff] at h3
      have hpath : isPathFrom g m b (m :: t2) := by
        refine ⟨rfl, ?_, h3.2⟩
        simpa using h2
      exact ⟨m, t2, rfl, h3.1, hpath⟩

theorem isPathFrom_length_two (g : Graph) (a b : Nat) (l : List Nat)
    (hp : isPathFrom g a b l) (hne : a ≠ b) : 2 ≤ l.length := by
  obtain ⟨m, t, rfl, -, -⟩ := isPathFrom_decompose g a b l hp hne
  simp

/-! ### Characterization of the inner neighbour loop -/

/-- An early `return` happens exactly when `endId` shows up among the
neighbours, and it returns `path + [end_id]`. -/
theorem expand_eq_inl (endId : Nat) (path : List Nat) :
    ∀ (ns visited queue : _) (f : List Nat),
      expandNeighbors endId path ns visited queue = Sum.inl f →
      f = path ++ [endId] ∧ endId ∈ ns := by
  intro ns
  induction ns with
  | nil => intro visited queue f h; simp [expandNeighbors] at h
  | cons n ns ih =>
    intro visited queue f h
    simp only [expandNeighbors] at h
    by_cases h1 : n = endId
    · rw [if_pos h1] at h
      simp at h
      exact ⟨h.symm, by simp [h1]⟩
    · rw [if_neg h1] at h
      by_cases h2 : n ∈ visited
      · rw [if_pos h2] at h
        obtain ⟨hf, hm⟩ := ih _ _ _ h
        exact ⟨hf, by simp [hm]⟩
      · rw [if_neg h2] at h
        obtain ⟨hf, hm⟩ := ih _ _ _ h
        exact ⟨hf, by simp [hm]⟩

/-- Combined characterization of a completed (no early return) run of the
inner neighbour loop: the target never showed up among the neighbours, the
visited set becomes `visited ∪ ns`, the queue is extended at its end with
one entry `(n, path + [n])` per newly visited neighbour `n`, counting,
`Nodup` preservation for the visited set and for the queued node ids. -/
theorem expand_inr_spec (endId : Nat) (path : List Nat) :
    ∀ (ns visited queue : _) (v' : List Nat) (q' : List (Nat × List Nat)),
      expandNeighbors endId path ns visited queue = Sum.inr (v', q') →
      endId ∉ ns ∧
      (∀ x, x ∈ v' ↔ x ∈ visited ∨ x ∈ ns) ∧
      (∃ news, q' = queue ++ news ∧
        (∀ en ∈ news, en.1 ∈ ns ∧ en.1 ∉ visited ∧ en.2 = path ++ [en.1]) ∧
        (∀ m, m ∈ ns → m ∉ visited → m ∈ news.map Prod.fst)) ∧
      (visited.Nodup → v'.Nodup) ∧
      v'.length + queue.length = visited.length + q'.length ∧
      ((queue.map Prod.fst).Nodup → (∀ x ∈ queue.map Prod.fst, x ∈ visited) →
        (q'.map Prod.fst).Nodup) := by
  intro ns
  induction ns with
  | nil =>
    intro visited queue v' q' h
    simp only [expandNeighbors, Sum.inr.injEq, Prod.mk.injEq] at h
    obtain ⟨rfl, rfl⟩ := h
    refine ⟨by simp, by simp, ⟨[], by simp, by simp, by simp⟩, id, by omega, ?_⟩
    intro h1 _; exact h1
  | cons n ns ih =>
    intro visited queue v' q' h
    simp only [expandNeighbors] at h
    by_cases h1 : n = endId
    · rw [if_pos h1] at h; simp at h
    · rw [if_neg h1] at h
      by_cases h2 : n ∈ visited
      · -- neighbour already visited: skipped
        rw [if_pos h2] at h
        obtain ⟨hni, hmem, ⟨news, hq, hmemnews, hcompl⟩, hnd, hcount, hqn⟩ :=
          ih _ _ _ _ h
        refine ⟨?_, ?_, ⟨news, hq, ?_, ?_⟩, hnd, hcount, hqn⟩
        · simp [List.mem_cons]
          exact ⟨fun he => h1 he.symm, hni⟩
        · intro x
          rw [hmem x]
          simp only [List.mem_cons]
          constructor
          · rintro (hx | hx)
            · exact Or.inl hx
            · exact Or.inr (Or.inr hx)
          · rintro (hx | rfl | hx)
            · exact Or.inl hx
            · exact Or.inl h2
            · exact Or.inr hx
        · intro en hen
          obtain ⟨ha, hb, hc⟩ := hmemnews en hen
          exact ⟨List.mem_cons_of_mem _ ha, hb, hc⟩
        · intro m hm hmv
          rcases List.mem_cons.mp hm with rfl | hm2
          · exact absurd h2 hmv
          · exact hcompl m hm2 hmv
      · -- fresh neighbour: visited and pushed
        rw [if_neg h2] at h
        obtain ⟨hni, hmem, ⟨news, hq, hmemnews, hcompl⟩, hnd, hcount, hqn⟩ :=
          ih _ _ _ _ h
        rw [List.append_assoc, List.singleton_append] at hq
        refine ⟨?_, ?_, ⟨(n, path ++ [n]) :: news, hq, ?_, ?_⟩, ?_, ?_, ?_⟩
        · simp [List.mem_cons]
          exact ⟨fun he => h1 he.symm, hni⟩
        · intro x
          rw [hmem x]
          simp only [List.mem_cons]
          tauto
        · intro en hen
          rcases List.mem_cons.mp hen with rfl | hen2
          · exact ⟨List.mem_cons_self _ _, h2, rfl⟩
          · obtain ⟨ha, hb, hc⟩ := hmemnews en hen2
            refine ⟨List.mem_cons_of_mem _ ha, ?_, hc⟩
            intro hv; exact hb (List.mem_cons_of_mem _ hv)
        · intro m hm hmv
          rcases List.mem_cons.mp hm with rfl | hm2
          · simp
          · by_cases hmn : m = n
            · subst hmn; simp
            · have : m ∉ n :: visited := by
                simp [List.mem_cons]; exact ⟨hmn, hmv⟩
              have := hcompl m hm2 this
              simp [List.mem_cons]
              right; simpa using this
        · intro hvn
          exact hnd (List.nodup_cons.mpr ⟨h2, hvn⟩)
        · simp only [List.length_append, List.length_cons, List.length_nil] at hcount
          omega
        · intro hq1 hq2
          apply hqn
          · rw [List.map_append]
            simp only [List.map_cons, List.map_nil]
            rw [List.nodup_append]
            refine ⟨hq1, by simp, ?_⟩
            intro x hx
            simp only [List.mem_singleton]
            intro hxn; subst hxn
            exact h2 (hq2 _ hx)
          · intro x hx
            rw [List.map_append] at hx
            rcases List.mem_append.mp hx with hx2 | hx2
            · exact List.mem_cons_of_mem _ (hq2 _ hx2)
            · simp at hx2; subst hx2; exact List.mem_cons_self _ _

/-! ### The BFS loop invariant -/

theorem nodup_subset_length_le (l l' : List Nat) (h : l.Nodup)
    (hs : ∀ x ∈ l, x ∈ l') : l.length ≤ l'.length := by
  have h1 : l.toFinset.card = l.length := List.toFinset_card_of_nodup h
  have h2 : l.toFinset ⊆ l'.toFinset := by
    intro x hx
    simp only [List.mem_toFinset] at hx ⊢
    exact hs x hx
  have h3 := Finset.card_le_card h2
  have h4 : l'.toFinset.card ≤ l'.length := l'.toFinset_card_le
  omega

/-- Any path from a visited node to the not-yet-visited target must pass
through a node whose expansion is still pending in the queue (the visited
nodes that are off the queue have all their neighbours visited and distinct
from the target, so a path cannot leave the visited region except through
the queue). -/
theorem bfs_crossing (g : Graph) (endId : Nat) (v : List Nat) (qn : List Nat)
    (hclosed : ∀ m ∈ v, m ∉ qn → ∀ x ∈ graphGet g m, x ∈ v ∧ x ≠ endId)
    (hend : endId ∉ v) :
    ∀ t m, isPathFrom g m endId t → m ∈ v →
      ∃ pre w t2, t = pre ++ w :: t2 ∧ w ∈ qn ∧ isPathFrom g w endId (w :: t2) := by
  intro t
  induction t with
  | nil =>
    intro m hp hm
    obtain ⟨h1, -, -⟩ := hp
    simp at h1
  | cons x t ih =>
    intro m hp hm
    have hx : x = m := by
      obtain ⟨h1, -, -⟩ := hp
      simpa using h1
    subst hx
    by_cases hq : x ∈ qn
    · exact ⟨[], x, t, rfl, hq, hp⟩
    · cases t with
      | nil =>
        obtain ⟨-, h2, -⟩ := hp
        simp at h2
        subst h2
        exact absurd hm hend
      | cons y t2 =>
        obtain ⟨h1, h2, h3⟩ := hp
        rw [isChain_cons_iff] at h3
        have hy := hclosed x hm hq y h3.1
        have hpy : isPathFrom g y endId (y :: t2) := ⟨rfl, by simpa using h2, h3.2⟩
        obtain ⟨pre, w, t3, heq, hw, hpw⟩ := ih y hpy hy.1
        refine ⟨x :: pre, w, t3, ?_, hw, hpw⟩
        rw [List.cons_append, ← heq]

/-- The queue entries behind the head are at most one level deeper and never
shallower than the head (two-layer BFS queue shape). -/
theorem layered_bounds (c : Nat) (p : List Nat) (rest : List (Nat × List Nat))
    (h : ∃ d q1 q2, (c, p) :: rest = q1 ++ q2 ∧ (∀ en ∈ q1, en.2.length = d) ∧
      (∀ en ∈ q2, en.2.length = d + 1)) :
    ∀ en ∈ rest, p.length ≤ en.2.length ∧ en.2.length ≤ p.length + 1 := by
  obtain ⟨d, q1, q2, heq, hq1, hq2⟩ := h
  cases q1 with
  | nil =>
    rw [List.nil_append] at heq
    intro en hen
    have hp := hq2 (c, p) (by rw [← heq]; exact List.mem_cons_self _ _)
    have he := hq2 en (by rw [← heq]; exact List.mem_cons_of_mem _ hen)
    simp at hp
    omega
  | cons e0 q1' =>
    rw [List.cons_append] at heq
    injection heq with h0 hrest
    intro en hen
    have hp : p.length = d := by
      have := hq1 e0 (List.mem_cons_self _ _)
      rw [← h0] at this
      simpa using this
    rw [hrest] at hen
    rcases List.mem_append.mp hen with hen2 | hen2
    · have := hq1 en (List.mem_cons_of_mem _ hen2)
      omega
    · have := hq2 en hen2
      omega

/-- The invariant holds for the initial state `queue = [(start, [start])]`,
`visited = {start}` whenever `start ≠ end`. -/
theorem bfsInv_init (g : Graph) (s e : Nat) (hne : s ≠ e) :
    BfsInv g s e [(s, [s])] [s] where
  start_mem := List.mem_singleton_self s
  end_not_mem := by simp; omega
  nodup_v := List.nodup_singleton s
  v_sub := by intro x hx; simp at hx; simp [hx]
  q_sub := by intro en hen; simp at hen; simp [hen]
  q_nodup := by simp
  q_paths := by
    intro en hen
    simp at hen
    subst hen
    exact ⟨isPathFrom_single g s, List.nodup_singleton s, by simp⟩
  layered := ⟨1, [(s, [s])], [], by simp, by intro en hen; simp at hen; simp [hen], by simp⟩
  closed := by intro m hm hq; simp at hm hq; simp [hm] at hq
  key := by
    intro l hl
    refine ⟨(s, [s]), List.mem_singleton_self _, l, hl, ?_⟩
    simp [Nat.add_comm]

/-- One iteration of the outer loop (pop `(c, p)`, expand its neighbours
without an early return) preserves the invariant; moreover the number of
visited nodes plus queue-length bookkeeping needed for termination. -/
theorem bfsInv_step (g : Graph) (s e c : Nat) (p : List Nat)
    (rest : List (Nat × List Nat)) (v v' : List Nat) (q' : List (Nat × List Nat))
    (hinv : BfsInv g s e ((c, p) :: rest) v)
    (h : expandNeighbors e p (graphGet g c) v rest = Sum.inr (v', q')) :
    BfsInv g s e q' v' ∧ v'.length + rest.length = v.length + q'.length ∧
      v.length ≤ v'.length := by
  obtain ⟨hni, hmem, ⟨news, hq, hmemnews, hcompl⟩, hnd, hcount, hqn⟩ :=
    expand_inr_spec e p (graphGet g c) v rest v' q' h
  have hvsub : ∀ x ∈ v, x ∈ v' := fun x hx => (hmem x).mpr (Or.inl hx)
  have hnssub : ∀ x ∈ graphGet g c, x ∈ v' := fun x hx => (hmem x).mpr (Or.inr hx)
  have hhead := hinv.q_paths (c, p) (List.mem_cons_self _ _)
  have hcv : c ∈ v := hinv.q_sub (c, p) (List.mem_cons_self _ _)
  have hbounds := layered_bounds c p rest hinv.layered
  have hqlen : ∀ en ∈ q', en.2.length ≤ p.length + 1 := by
    intro en hen
    rw [hq] at hen
    rcases List.mem_append.mp hen with h2 | h2
    · exact (hbounds en h2).2
    · rw [(hmemnews en h2).2.2]; simp
  have hend' : e ∉ v' := by
    intro hx
    rcases (hmem e).mp hx with h2 | h2
    · exact hinv.end_not_mem h2
    · exact hni h2
  have hqsub' : ∀ en ∈ q', en.1 ∈ v' := by
    intro en hen
    rw [hq] at hen
    rcases List.mem_append.mp hen with h2 | h2
    · exact hvsub _ (hinv.q_sub en (List.mem_cons_of_mem _ h2))
    · exact hnssub _ (hmemnews en h2).1
  have hclosed' : ∀ m ∈ v', m ∉ q'.map Prod.fst →
      ∀ x ∈ graphGet g m, x ∈ v' ∧ x ≠ e := by
    intro m hm hmq x hx
    by_cases hmc : m = c
    · subst hmc
      exact ⟨hnssub x hx, fun hxe => hni (hxe ▸ hx)⟩
    · by_cases hmv : m ∈ v
      · have hmrest : m ∉ rest.map Prod.fst := by
          intro hmr
          apply hmq
          rw [hq, List.map_append]
          exact List.mem_append.mpr (Or.inl hmr)
        have hmq0 : m ∉ ((c, p) :: rest).map Prod.fst := by
          simp only [List.map_cons, List.mem_cons]
          rintro (rfl | h3)
          · exact hmc rfl
          · exact hmrest h3
        have := hinv.closed m hmv hmq0 x hx
        exact ⟨hvsub _ this.1, this.2⟩
      · have hmns : m ∈ graphGet g c := by
          rcases (hmem m).mp hm with h2 | h2
          · exact absurd h2 hmv
          · exact h2
        have := hcompl m hmns hmv
        exact absurd (by rw [hq, List.map_append]; exact List.mem_append.mpr (Or.inr this)) hmq
  have hkey' : ∀ l, isPathFrom g s e l →
      ∃ en ∈ q', ∃ t, isPathFrom g en.1 e t ∧ en.2.length + t.length ≤ l.length + 1 := by
    intro l hl
    obtain ⟨en, hen, t, hpt, hlen⟩ := hinv.key l hl
    rcases List.mem_cons.mp hen with rfl | henr
    · -- the popped head (c, p) was the witness
      have hct : c ≠ e := fun hce => hend' (hce ▸ hvsub c hcv)
      have hlen2 : p.length + t.length ≤ l.length + 1 := by simpa using hlen
      obtain ⟨m, t2, ht, hmadj, hpm⟩ := isPathFrom_decompose g c e t hpt hct
      have ht2 : t.length = t2.length + 2 := by rw [ht]; simp
      by_cases hmv : m ∈ v
      · obtain ⟨pre, w, t3, heq3, hw, hpw⟩ :=
          bfs_crossing g e v' (q'.map Prod.fst) hclosed' hend'
            (m :: t2) m hpm (hvsub m hmv)
        obtain ⟨en', hen', hw1⟩ := List.mem_map.mp hw
        refine ⟨en', hen', w :: t3, by rw [hw1]; exact hpw, ?_⟩
        have h5 := hqlen en' hen'
        have hlen3 : t3.length ≤ t2.length := by
          have := congrArg List.length heq3
          simp at this
          omega
        simp only [List.length_cons]
        omega
      · have hmn := hcompl m hmadj hmv
        obtain ⟨en', hen', hw1⟩ := List.mem_map.mp hmn
        obtain ⟨ha, hb, hc2⟩ := hmemnews en' hen'
        refine ⟨en', by rw [hq]; exact List.mem_append.mpr (Or.inr hen'),
          m :: t2, by rw [hw1]; exact hpm, ?_⟩
        rw [hc2, hw1]
        simp only [List.length_append, List.length_cons, List.length_nil]
        omega
    · exact ⟨en, by rw [hq]; exact List.mem_append.mpr (Or.inl henr), t, hpt, hlen⟩
  have hlay' : ∃ d q1 q2, q' = q1 ++ q2 ∧ (∀ en ∈ q1, en.2.length = d) ∧
      (∀ en ∈ q2, en.2.length = d + 1) := by
    obtain ⟨d, q1, q2, heq, hq1, hq2⟩ := hinv.layered
    have hnews : ∀ en ∈ news, en.2.length = p.length + 1 := by
      intro en hen; rw [(hmemnews en hen).2.2]; simp
    cases q1 with
    | nil =>
      rw [List.nil_append] at heq
      have hp : p.length = d + 1 := by
        have := hq2 (c, p) (by rw [← heq]; exact List.mem_cons_self _ _)
        simpa using this
      refine ⟨d + 1, rest, news, hq, ?_, ?_⟩
      · intro en hen
        exact hq2 en (by rw [← heq]; exact List.mem_cons_of_mem _ hen)
      · intro en hen; rw [hnews en hen, hp]
    | cons e0 q1' =>
      rw [List.cons_append] at heq
      injection heq with h0 hrest
      have hp : p.length = d := by
        have := hq1 e0 (List.mem_cons_self _ _)
        rw [← h0] at this
        simpa using this
      refine ⟨d, q1', q2 ++ news, ?_, ?_, ?_⟩
      · rw [hq, hrest, List.append_assoc]
      · intro en hen; exact hq1 en (List.mem_cons_of_mem _ hen)
      · intro en hen
        rcases List.mem_append.mp hen with h2 | h2
        · exact hq2 en h2
        · rw [hnews en h2, hp]
  have hqp' : ∀ en ∈ q', isPathFrom g s en.1 en.2 ∧ en.2.Nodup ∧ ∀ x ∈ en.2, x ∈ v' := by
    intro en hen
    rw [hq] at hen
    rcases List.mem_append.mp hen with h2 | h2
    · obtain ⟨ha, hb, hc2⟩ := hinv.q_paths en (List.mem_cons_of_mem _ h2)
      exact ⟨ha, hb, fun x hx => hvsub x (hc2 x hx)⟩
    · obtain ⟨ha, hb, hc2⟩ := hmemnews en h2
      obtain ⟨hp1, hp2, hp3⟩ := hhead
      refine ⟨?_, ?_, ?_⟩
      · rw [hc2]; exact isPathFrom_append_single g s c en.1 p hp1 ha
      · rw [hc2]
        apply List.Nodup.append hp2 (List.nodup_singleton _)
        intro x hx1 hx2
        simp at hx2
        subst hx2
        exact hb (hp3 _ hx1)
      · rw [hc2]
        intro x hx
        rcases List.mem_append.mp hx with h3 | h3
        · exact hvsub x (hp3 x h3)
        · simp at h3; subst h3; exact hnssub _ ha
  have hqn' : (q'.map Prod.fst).Nodup := by
    apply hqn
    · exact (by simpa using hinv.q_nodup : (c :: rest.map Prod.fst).Nodup).of_cons
    · intro x hx
      obtain ⟨en, hen, hx1⟩ := List.mem_map.mp hx
      rw [← hx1]
      exact hinv.q_sub en (List.mem_cons_of_mem _ hen)
  have hvsub' : ∀ x ∈ v', x ∈ s :: graphNodes g := by
    intro x hx
    rcases (hmem x).mp hx with h2 | h2
    · exact hinv.v_sub x h2
    · exact List.mem_cons_of_mem _ (mem_graphGet_mem_graphNodes g c x h2)
  exact ⟨⟨hvsub s hinv.start_mem, hend', hnd hinv.nodup_v, hvsub', hqsub', hqn',
    hqp', hlay', hclosed', hkey'⟩, hcount,
    nodup_subset_length_le v v' hinv.nodup_v hvsub⟩

/-- An early return from the inner loop yields a duplicate-free shortest
path from `start` to `end`. -/
theorem bfs_return_spec (g : Graph) (s e c : Nat) (p : List Nat)
    (rest : List (Nat × List Nat)) (v : List Nat) (f : List Nat)
    (hinv : BfsInv g s e ((c, p) :: rest) v)
    (h : expandNeighbors e p (graphGet g c) v rest = Sum.inl f) :
    isPathFrom g s e f ∧ f.Nodup ∧ ∀ l, isPathFrom g s e l → f.length ≤ l.length := by
  obtain ⟨hf, hmemn⟩ := expand_eq_inl e p (graphGet g c) v rest f h
  obtain ⟨hp1, hp2, hp3⟩ := hinv.q_paths (c, p) (List.mem_cons_self _ _)
  subst hf
  refine ⟨isPathFrom_append_single g s c e p hp1 hmemn, ?_, ?_⟩
  · apply List.Nodup.append hp2 (List.nodup_singleton _)
    intro x hx1 hx2
    simp at hx2
    subst hx2
    exact hinv.end_not_mem (hp3 _ hx1)
  · intro l hl
    obtain ⟨en, hen, t, hpt, hlen⟩ := hinv.key l hl
    have hne : en.1 ≠ e := fun h2 => hinv.end_not_mem (h2 ▸ hinv.q_sub en hen)
    have ht2 := isPathFrom_length_two g en.1 e t hpt hne
    have hmin : p.length ≤ en.2.length := by
      rcases List.mem_cons.mp hen with h2 | h2
      · rw [h2]
      · exact (layered_bounds c p rest hinv.layered en h2).1
    simp only [List.length_append, List.length_cons, List.length_nil]
    omega

/-- With the invariant and enough fuel, the outer loop terminates and its
result is either a duplicate-free shortest path or `None` with the target
genuinely unreachable. -/
theorem bfsRun_spec (g : Graph) (s e : Nat) :
    ∀ (fuel : Nat) (q : List (Nat × List Nat)) (v : List Nat),
      BfsInv g s e q v →
      2 * (((s :: graphNodes g).dedup).length - v.length) + q.length < fuel →
      ∃ r, bfsRun g e fuel q v = some r ∧
        ((∃ f, r = some f ∧ isPathFrom g s e f ∧ f.Nodup ∧
            ∀ l, isPathFrom g s e l → f.length ≤ l.length) ∨
          (r = none ∧ ¬ ∃ l, isPathFrom g s e l)) := by
  intro fuel
  induction fuel with
  | zero =>
    intro q v hinv hfuel
    exact absurd hfuel (Nat.not_lt_zero _)
  | succ fuel ih =>
    intro q v hinv hfuel
    cases q with
    | nil =>
      refine ⟨none, rfl, Or.inr ⟨rfl, ?_⟩⟩
      rintro ⟨l, hl⟩
      obtain ⟨en, hen, -⟩ := hinv.key l hl
      simp at hen
    | cons head rest =>
      obtain ⟨c, p⟩ := head
      cases hexp : expandNeighbors e p (graphGet g c) v rest with
      | inl f =>
        refine ⟨some f, ?_, Or.inl ⟨f, rfl, bfs_return_spec g s e c p rest v f hinv hexp⟩⟩
        simp [bfsRun, hexp]
      | inr vq =>
        obtain ⟨v', q'⟩ := vq
        obtain ⟨hinv', hcount, hle⟩ := bfsInv_step g s e c p rest v v' q' hinv hexp
        have hv'le : v'.length ≤ ((s :: graphNodes g).dedup).length := by
          apply nodup_subset_length_le _ _ hinv'.nodup_v
          intro x hx
          exact List.mem_dedup.mpr (hinv'.v_sub x hx)
        simp only [List.length_cons] at hfuel
        have hfuel' : 2 * (((s :: graphNodes g).dedup).length - v'.length) + q'.length
            < fuel := by omega
        obtain ⟨r, hr, hres⟩ := ih q' v' hinv' hfuel'
        refine ⟨r, ?_, hres⟩
        simp [bfsRun, hexp, hr]

/-- Full characterization of `find_separation_path` for distinct endpoints:
it returns a duplicate-free shortest path when one exists and `None`
exactly when the target is unreachable. -/
theorem find_separation_path_spec (g : Graph) (s e : Nat) (hne : s ≠ e) :
    (∃ f, find_separation_path s e g = some f ∧ isPathFrom g s e f ∧ f.Nodup ∧
        ∀ l, isPathFrom g s e l → f.length ≤ l.length) ∨
      (find_separation_path s e g = none ∧ ¬ ∃ l, isPathFrom g s e l) := by
  have hinv := bfsInv_init g s e hne
  have hs : 1 ≤ ((s :: graphNodes g).dedup).length := by
    have hm : s ∈ (s :: graphNodes g).dedup :=
      List.mem_dedup.mpr (List.mem_cons_self _ _)
    exact List.length_pos.mpr (List.ne_nil_of_mem hm)
  have hfuel : 2 * (((s :: graphNodes g).dedup).length - [s].length)
      + [(s, [s])].length < bfsFuel g s := by
    simp only [List.length_cons, List.length_nil, bfsFuel]
    omega
  obtain ⟨r, hr, hres⟩ := bfsRun_spec g s e (bfsFuel g s) [(s, [s])] [s] hinv hfuel
  unfold find_separation_path
  rw [if_neg hne, hr]
  rcases hres with ⟨f, rfl, hf⟩ | ⟨rfl, hnp⟩
  · exact Or.inl ⟨f, rfl, hf⟩
  · exact Or.inr ⟨rfl, hnp⟩

/-! ### Loader graph construction -/

theorem graphGet_cons (k : Nat) (s : List Nat) (rest : Graph) (n : Nat) :
    graphGet ((k, s) :: rest) n = if k = n then s else graphGet rest n := by
  unfold graphGet
  rw [List.lookup]
  by_cases h : k = n
  · have hb : (n == k) = true := by simp [h]
    simp [hb, h]
  · have hb : (n == k) = false := by simp [Ne.symm h]
    simp [hb, h]

theorem mem_setAdd_self (s : List Nat) (b : Nat) : b ∈ setAdd s b := by
  unfold setAdd
  split
  · assumption
  · simp

theorem mem_setAdd_of_mem (s : List Nat) (b x : Nat) (h : x ∈ s) : x ∈ setAdd s b := by
  unfold setAdd
  split
  · exact h
  · simp [h]

theorem mem_graphGet_graphAdd_self (g : Graph) (a b : Nat) :
    b ∈ graphGet (graphAdd g a b) a := by
  induction g with
  | nil =>
    show b ∈ graphGet [(a, [b])] a
    rw [graphGet_cons, if_pos rfl]
    simp
  | cons kv rest ih =>
    obtain ⟨k, s⟩ := kv
    unfold graphAdd
    by_cases hk : k = a
    · rw [if_pos hk, graphGet_cons, if_pos hk]
      exact mem_setAdd_self s b
    · rw [if_neg hk, graphGet_cons, if_neg hk]
      exact ih

theorem mem_graphGet_graphAdd_mono (g : Graph) (a b x y : Nat)
    (h : x ∈ graphGet g y) : x ∈ graphGet (graphAdd g a b) y := by
  induction g with
  | nil => simp [graphGet, List.lookup] at h
  | cons kv rest ih =>
    obtain ⟨k, s⟩ := kv
    rw [graphGet_cons] at h
    unfold graphAdd
    by_cases hk : k = a
    · rw [if_pos hk, graphGet_cons]
      by_cases hy : k = y
      · rw [if_pos hy]
        rw [if_pos hy] at h
        exact mem_setAdd_of_mem s b x h
      · rw [if_neg hy]
        rw [if_neg hy] at h
        exact h
    · rw [if_neg hk, graphGet_cons]
      by_cases hy : k = y
      · rw [if_pos hy]
        rw [if_pos hy] at h
        exact h
      · rw [if_neg hy]
        rw [if_neg hy] at h
        exact ih h

theorem statsGet_statsPut (st : StatsIndex) (k k2 : Nat × Nat) (v : StatRec) :
    statsGet (statsPut st k v) k2 = if k2 = k then some v else statsGet st k2 := by
  unfold statsGet statsPut
  rw [List.lookup]
  by_cases h : k2 = k
  · have hb : (k2 == k) = true := by simp [h]
    simp [hb, h]
  · have hb : (k2 == k) = false := by simpa using h
    simp [hb, h]

/-- Each `loadStep` writes both orderings of its pair with the same payload,
so dict symmetry of the stats index is preserved. -/
theorem statsSymm_loadStep (acc : Graph × StatsIndex) (row : TeammateRow)
    (h : ∀ a b, statsGet acc.2 (a, b) = statsGet acc.2 (b, a)) :
    ∀ a b, statsGet (loadStep acc row).2 (a, b)
      = statsGet (loadStep acc row).2 (b, a) := by
  intro a b
  unfold loadStep
  simp only
  rw [statsGet_statsPut, statsGet_statsPut, statsGet_statsPut, statsGet_statsPut]
  have e1 : ((b, a) = (row.teammate_player_id, row.player_id))
      ↔ ((a, b) = (row.player_id, row.teammate_player_id)) := by
    simp only [Prod.mk.injEq]
    tauto
  have e2 : ((b, a) = (row.player_id, row.teammate_player_id))
      ↔ ((a, b) = (row.teammate_player_id, row.player_id)) := by
    simp only [Prod.mk.injEq]
    tauto
  by_cases h1 : (a, b) = (row.teammate_player_id, row.player_id) <;>
    by_cases h2 : (a, b) = (row.player_id, row.teammate_player_id)
  · rw [if_pos h1, if_pos (e1.mpr h2)]
  · rw [if_pos h1, if_neg (fun hx => h2 (e1.mp hx)), if_pos (e2.mpr h1)]
  · rw [if_neg h1, if_pos h2, if_pos (e1.mpr h2)]
  · rw [if_neg h1, if_neg h2, if_neg (fun hx => h2 (e1.mp hx)),
      if_neg (fun hx => h1 (e2.mp hx))]
    exact h a b

theorem statsGet_isSome_loadStep (acc : Graph × StatsIndex) (row : TeammateRow)
    (k : Nat × Nat) (h : (statsGet acc.2 k).isSome) :
    (statsGet (loadStep acc row).2 k).isSome := by
  unfold loadStep
  simp only
  rw [statsGet_statsPut, statsGet_statsPut]
  split
  · simp
  · split
    · simp
    · exact h

/-- A single row's processing establishes both adjacency directions and
both stats keys. -/
theorem loadStep_establishes (acc : Graph × StatsIndex) (r : TeammateRow) :
    r.teammate_player_id ∈ graphGet (loadStep acc r).1 r.player_id ∧
    r.player_id ∈ graphGet (loadStep acc r).1 r.teammate_player_id ∧
    (statsGet (loadStep acc r).2 (r.player_id, r.teammate_player_id)).isSome := by
  unfold loadStep
  simp only
  refine ⟨?_, ?_, ?_⟩
  · exact mem_graphGet_graphAdd_mono _ _ _ _ _ (mem_graphGet_graphAdd_self _ _ _)
  · exact mem_graphGet_graphAdd_self _ _ _
  · rw [statsGet_statsPut, statsGet_statsPut]
    split
    · simp
    · rw [if_pos rfl]
      simp

theorem foldl_graph_mono (rows : List TeammateRow) :
    ∀ (acc : Graph × StatsIndex) (x y : Nat), x ∈ graphGet acc.1 y →
      x ∈ graphGet (rows.foldl loadStep acc).1 y := by
  induction rows with
  | nil => intro acc x y h; simpa using h
  | cons r rest ih =>
    intro acc x y h
    rw [List.foldl_cons]
    apply ih
    unfold loadStep
    simp only
    exact mem_graphGet_graphAdd_mono _ _ _ _ _ (mem_graphGet_graphAdd_mono _ _ _ _ _ h)

theorem foldl_stats_isSome (rows : List TeammateRow) :
    ∀ (acc : Graph × StatsIndex) (k : Nat × Nat), (statsGet acc.2 k).isSome →
      (statsGet (rows.foldl loadStep acc).2 k).isSome := by
  induction rows with
  | nil => intro acc k h; simpa using h
  | cons r rest ih =>
    intro acc k h
    rw [List.foldl_cons]
    exact ih _ _ (statsGet_isSome_loadStep acc r k h)

theorem foldl_statsSymm (rows : List TeammateRow) :
    ∀ (acc : Graph × StatsIndex),
      (∀ a b, statsGet acc.2 (a, b) = statsGet acc.2 (b, a)) →
      ∀ a b, statsGet (rows.foldl loadStep acc).2 (a, b)
        = statsGet (rows.foldl loadStep acc).2 (b, a) := by
  induction rows with
  | nil => intro acc h; simpa using h
  | cons r rest ih =>
    intro acc h
    rw [List.foldl_cons]
    exact ih _ (statsSymm_loadStep acc r h)

theorem buildLoop_processed (rows : List TeammateRow) :
    ∀ (acc : Graph × StatsIndex) (r : TeammateRow), r ∈ rows →
      r.teammate_player_id ∈ graphGet (rows.foldl loadStep acc).1 r.player_id ∧
      r.player_id ∈ graphGet (rows.foldl loadStep acc).1 r.teammate_player_id ∧
      (statsGet (rows.foldl loadStep acc).2 (r.player_id, r.teammate_player_id)).isSome := by
  induction rows with
  | nil => intro acc r hr; simp at hr
  | cons r0 rest ih =>
    intro acc r hr
    rw [List.foldl_cons]
    rcases List.mem_cons.mp hr with rfl | hr2
    · obtain ⟨ha, hb, hc⟩ := loadStep_establishes acc r
      exact ⟨foldl_graph_mono rest _ _ _ ha, foldl_graph_mono rest _ _ _ hb,
        foldl_stats_isSome rest _ _ hc⟩
    · exact ih _ r hr2

/-! ### Name cleaning -/

theorem dropWhile_idem (p : Char → Bool) (l : List Char) :
    (l.dropWhile p).dropWhile p = l.dropWhile p := by
  induction l with
  | nil => rfl
  | cons c t ih =>
    by_cases h : p c
    · rw [List.dropWhile_cons_of_pos h, ih]
    · rw [List.dropWhile_cons_of_neg h, List.dropWhile_cons_of_neg h]

theorem dropWhile_append_single (p : Char → Bool) (l : List Char) (c : Char)
    (hc : ¬ p c) : (l ++ [c]).dropWhile p = l.dropWhile p ++ [c] := by
  rw [List.dropWhile_append]
  split
  · rename_i h
    rw [List.isEmpty_iff] at h
    rw [h, List.dropWhile_cons_of_neg hc]
    rfl
  · rfl

/-- Dropping leading whitespace commutes with dropping trailing whitespace
(phrased on raw character lists via `reverse`). -/
theorem strip_commute (p : Char → Bool) (l : List Char) :
    ((l.reverse.dropWhile p).reverse).dropWhile p
      = ((l.dropWhile p).reverse.dropWhile p).reverse := by
  induction l with
  | nil => rfl
  | cons c t ih =>
    by_cases h : p c
    · rw [List.dropWhile_cons_of_pos h, List.reverse_cons, List.dropWhile_append]
      by_cases he : (t.reverse.dropWhile p).isEmpty
      · rw [if_pos he]
        have h1 : List.dropWhile p [c] = [] := by
          rw [List.dropWhile_cons_of_pos h]
          rfl
        rw [h1]
        have h2 : t.reverse.dropWhile p = [] := List.isEmpty_iff.mp he
        have h3 : t.dropWhile p = [] := by
          rw [List.dropWhile_eq_nil_iff] at h2 ⊢
          intro x hx
          exact h2 x (List.mem_reverse.mpr hx)
        rw [h3]
        rfl
      · rw [if_neg he, List.reverse_append, List.reverse_singleton,
          List.singleton_append, List.dropWhile_cons_of_pos h]
        exact ih
    · rw [List.dropWhile_cons_of_neg h, List.reverse_cons,
        dropWhile_append_single p t.reverse c h, List.reverse_append,
        List.reverse_singleton, List.singleton_append,
        List.dropWhile_cons_of_neg h]

theorem takeWhile_all_append (p : Char → Bool) (l1 l2 : List Char) (c : Char)
    (h1 : ∀ x ∈ l1, p x) (hc : ¬ p c) :
    (l1 ++ c :: l2).takeWhile p = l1 ∧ (l1 ++ c :: l2).dropWhile p = c :: l2 := by
  induction l1 with
  | nil =>
    rw [List.nil_append]
    exact ⟨List.takeWhile_cons_of_neg hc, List.dropWhile_cons_of_neg hc⟩
  | cons a t ih =>
    have ha : p a := h1 a (List.mem_cons_self _ _)
    obtain ⟨iht, ihd⟩ := ih fun x hx => h1 x (List.mem_cons_of_mem _ hx)
    rw [List.cons_append, List.takeWhile_cons_of_pos ha,
      List.dropWhile_cons_of_pos ha, iht, ihd]
    exact ⟨rfl, rfl⟩

/-- A name of the form `base ++ " (" ++ digits ++ ")"` is cleaned to the
stripped `base`: the regex removes the whole parenthesized suffix together
with the whitespace before it, and `strip()` then trims `base`. -/
theorem clean_removes_suffix (base ds : String) (hne : ds ≠ "")
    (hdig : ∀ c ∈ ds.data, isDigitChar c) :
    _clean_player_name (base ++ " (" ++ ds ++ ")") = pyStrip base := by
  have hd : (base ++ " (" ++ ds ++ ")").data
      = base.data ++ ([' ', '('] ++ (ds.data ++ [')'])) := by
    simp [String.data_append]
  have hrev : (base ++ " (" ++ ds ++ ")").data.reverse
      = ')' :: (ds.data.reverse ++ ('(' :: (' ' :: base.data.reverse))) := by
    rw [hd]
    simp
  have hds : (ds.data.reverse).isEmpty = false := by
    rw [List.isEmpty_eq_false_iff_exists_mem]
    have : ds.data ≠ [] := fun h => hne (by
      cases ds with
      | mk l => simp at h; rw [h])
    obtain ⟨c, hc⟩ := List.exists_mem_of_ne_nil _ this
    exact ⟨c, List.mem_reverse.mpr hc⟩
  obtain ⟨hta, hdr⟩ := takeWhile_all_append isDigitChar ds.data.reverse
    (' ' :: base.data.reverse) '('
    (fun x hx => hdig x (List.mem_reverse.mp hx)) (by decide)
  have hstrip : stripParenRev
      (')' :: (ds.data.reverse ++ ('(' :: (' ' :: base.data.reverse))))
      = some (base.data.reverse.dropWhile isSpaceChar) := by
    rw [stripParenRev]
    rw [if_pos rfl, hta, hds, hdr]
    rw [if_neg (by simp)]
    simp [List.dropWhile_cons_of_pos (by decide : isSpaceChar ' ' = true)]
  unfold _clean_player_name reSubTrailingParen
  rw [hrev]
  simp only [hstrip]
  rw [if_neg (by decide : ¬ (')' : Char) = '\n')]
  unfold pyStrip
  congr 1
  have e1 : ({ data := (List.dropWhile isSpaceChar base.data.reverse).reverse } : String).data
      = (List.dropWhile isSpaceChar base.data.reverse).reverse := rfl
  rw [e1, strip_commute, List.reverse_reverse, dropWhile_idem]
  exact strip_commute isSpaceChar base.data

/-- A name the regex does not match, and that carries no outer whitespace,
is returned unchanged by `_clean_player_name`. -/
theorem clean_unchanged (s : String) (h1 : hasTrailingNumParen s = false)
    (h2 : pyStrip s = s) : _clean_player_name s = s := by
  unfold _clean_player_name
  have hsub : reSubTrailingParen s = s := by
    cases hs : s.data.reverse with
    | nil =>
      unfold reSubTrailingParen
      rw [hs]
    | cons c rcs =>
      have h1' : (if c = '\n' then (stripParenRev rcs).isSome
          else (stripParenRev (c :: rcs)).isSome) = false := by
        rw [← h1]
        unfold hasTrailingNumParen
        rw [hs]
      have hr : reSubTrailingParen s = (if c = '\n' then
          (match stripParenRev rcs with
            | some pre => String.mk (pre.reverse ++ ['\n'])
            | none => s)
          else
          (match stripParenRev (c :: rcs) with
            | some pre => String.mk pre.reverse
            | none => s)) := by
        unfold reSubTrailingParen
        rw [hs]
      rw [hr]
      by_cases hc : c = '\n'
      · rw [if_pos hc]
        rw [if_pos hc] at h1'
        cases hsp : stripParenRev rcs with
        | none => rfl
        | some pre => rw [hsp] at h1'; simp at h1'
      · rw [if_neg hc]
        rw [if_neg hc] at h1'
        cases hsp : stripParenRev (c :: rcs) with
        | none => rfl
        | some pre => rw [hsp] at h1'; simp at h1'
  rw [hsub, h2]

/-! ### Quiz generator -/

/-- Whenever the sampling loop returns a result carrying a path, the
degree-count acceptance test was passed for that path. -/
theorem quizAttemptLoop_bounds (d2i : String → Option Nat) (g : Graph)
    (pool : List String) (minD maxD : Nat) (draws : Nat → Nat × Nat) :
    ∀ (n i : Nat) (p1 p2 : Option String) (path : List Nat),
      quizAttemptLoop d2i g pool minD maxD draws n i
        = Except.ok (p1, p2, some path) →
      minD ≤ path.length - 1 ∧ path.length - 1 ≤ maxD := by
  intro n
  induction n with
  | zero =>
    intro i p1 p2 path h
    simp [quizAttemptLoop] at h
  | succ n ih =>
    intro i p1 p2 path h
    rw [quizAttemptLoop] at h
    cases h1 : pyChoice pool (draws i).1 with
    | none => rw [h1] at h; simp at h
    | some x1 =>
      rw [h1] at h
      cases h2 : pyChoice pool (draws i).2 with
      | none => rw [h2] at h; simp at h
      | some x2 =>
        rw [h2] at h
        simp only at h
        by_cases hpp : x1 = x2
        · rw [if_pos hpp] at h
          exact ih _ _ _ _ h
        · rw [if_neg hpp] at h
          by_cases htr : (truthyId (d2i x1) && truthyId (d2i x2)) = true
          · rw [if_pos htr] at h
            cases h3 : find_separation_path ((d2i x1).getD 0) ((d2i x2).getD 0) g with
            | none => rw [h3] at h; exact ih _ _ _ _ h
            | some pth =>
              rw [h3] at h
              simp only at h
              by_cases h4 : pth ≠ [] ∧ minD ≤ pth.length - 1 ∧ pth.length - 1 ≤ maxD
              · rw [if_pos h4] at h
                simp only [Except.ok.injEq, Prod.mk.injEq, Option.some.injEq] at h
                obtain ⟨-, -, hpath⟩ := h
                rw [← hpath]
                exact ⟨h4.2.1, h4.2.2⟩
              · rw [if_neg h4] at h
                exact ih _ _ _ _ h
          · rw [if_neg htr] at h
            exact ih _ _ _ _ h

/-- On a nonempty pool, the sampling loop never raises: it returns either
the failure triple or a complete success triple. -/
theorem quizAttemptLoop_ok (d2i : String → Option Nat) (g : Graph)
    (pool : List String) (minD maxD : Nat) (draws : Nat → Nat × Nat)
    (hpool : pool ≠ []) :
    ∀ n i, ∃ r, quizAttemptLoop d2i g pool minD maxD draws n i = Except.ok r ∧
      (r = (none, none, none) ∨ ∃ a b p, r = (some a, some b, some p)) := by
  have hchoice : ∀ k, ∃ x, pyChoice pool k = some x := by
    intro k
    unfold pyChoice
    have hlt : k % pool.length < pool.length :=
      Nat.mod_lt _ (List.length_pos.mpr hpool)
    exact ⟨pool[k % pool.length], List.getElem?_eq_getElem hlt⟩
  intro n
  induction n with
  | zero => intro i; exact ⟨(none, none, none), rfl, Or.inl rfl⟩
  | succ n ih =>
    intro i
    rw [quizAttemptLoop]
    obtain ⟨x1, hx1⟩ := hchoice (draws i).1
    obtain ⟨x2, hx2⟩ := hchoice (draws i).2
    rw [hx1, hx2]
    simp only
    by_cases hpp : x1 = x2
    · rw [if_pos hpp]
      exact ih (i + 1)
    · rw [if_neg hpp]
      by_cases htr : (truthyId (d2i x1) && truthyId (d2i x2)) = true
      · rw [if_pos htr]
        cases h3 : find_separation_path ((d2i x1).getD 0) ((d2i x2).getD 0) g with
        | none => exact ih (i + 1)
        | some pth =>
          simp only
          by_cases h4 : pth ≠ [] ∧ minD ≤ pth.length - 1 ∧ pth.length - 1 ≤ maxD
          · rw [if_pos h4]
            exact ⟨(some x1, some x2, some pth), rfl, Or.inr ⟨x1, x2, pth, rfl⟩⟩
          · rw [if_neg h4]
            exact ih (i + 1)
      · rw [if_neg htr]
        exact ih (i + 1)

/-- The sampling loop only reads the draws of its at most `n` attempts. -/
theorem quizAttemptLoop_draws_congr (d2i : String → Option Nat) (g : Graph)
    (pool : List String) (minD maxD : Nat) (draws draws2 : Nat → Nat × Nat) :
    ∀ n i, (∀ j, i ≤ j → j < i + n → draws2 j = draws j) →
      quizAttemptLoop d2i g pool minD maxD draws2 n i
        = quizAttemptLoop d2i g pool minD maxD draws n i := by
  intro n
  induction n with
  | zero => intro i _; rfl
  | succ n ih =>
    intro i h
    have hdi : draws2 i = draws i := h i le_rfl (by omega)
    have hrec := ih (i + 1) fun j hj1 hj2 => h j (by omega) (by omega)
    rw [quizAttemptLoop, quizAttemptLoop, hdi]
    cases h1 : pyChoice pool (draws i).1 with
    | none => rfl
    | some x1 =>
      cases h2 : pyChoice pool (draws i).2 with
      | none => rfl
      | some x2 =>
        simp only
        by_cases hpp : x1 = x2
        · rw [if_pos hpp, if_pos hpp, hrec]
        · rw [if_neg hpp, if_neg hpp]
          by_cases htr : (truthyId (d2i x1) && truthyId (d2i x2)) = true
          · rw [if_pos htr, if_pos htr]
            cases h3 : find_separation_path ((d2i x1).getD 0) ((d2i x2).getD 0) g with
            | none => exact hrec
            | some pth =>
              simp only
              by_cases h4 : pth ≠ [] ∧ minD ≤ pth.length - 1 ∧ pth.length - 1 ≤ maxD
              · rw [if_pos h4, if_pos h4]
              · rw [if_neg h4, if_neg h4, hrec]
          · rw [if_neg htr, if_neg htr, hrec]

/-! ### Hint building -/

/-- On a nonempty resolved name the hint builder succeeds, and its body is
the `<br>`-joined hint list of the requested level. -/
theorem build_hint_text_eq (pid : Nat) (names : Nat → Option String)
    (details : Nat → Option PlayerDetail) (l : Nat)
    (hname : (names pid).getD "Unknown" ≠ "") :
    ∃ hd, build_hint_text pid names details l
      = some (hd, joinBr (hintList ((names pid).getD "Unknown") (details pid) l)) := by
  simp only [build_hint_text]
  rw [if_neg hname]
  exact ⟨_, rfl⟩

theorem hintList_zero (nm : String) (d : Option PlayerDetail) :
    hintList nm d 0 = [level1Line nm] := rfl

theorem hintList_one (nm : String) (d : Option PlayerDetail) :
    hintList nm d 1 = [level1Line nm, nationalityLine d] := rfl

theorem hintList_two (nm : String) (d : Option PlayerDetail) :
    hintList nm d 2 = [level1Line nm, nationalityLine d, clubLine d] := rfl

theorem hintList_three (nm : String) (d : Option PlayerDetail) :
    hintList nm d 3
      = [level1Line nm, nationalityLine d, clubLine d, positionLine d] := rfl

theorem hintList_four_plus (nm : String) (d : Option PlayerDetail) (n : Nat) :
    hintList nm d (n + 4) = [level1Line nm, nationalityLine d, clubLine d,
      positionLine d, ageLine d] := by
  unfold hintList
  rw [if_pos (by omega), if_pos (by omega), if_pos (by omega), if_pos (by omega)]
  rfl

/-!
## Claims

One theorem per reviewed claim, each stated over the embedded definitions
above.
-/

/-- C1: for every adjacency structure and every pair of distinct player ids
`a ≠ b` such that `b` is reachable from `a`, `find_separation_path a b g`
returns a path from `a` to `b` whose length is minimal among all `a`-to-`b`
paths — equivalently, whose length minus 1 equals the true unweighted graph
distance (the minimal number of edges on any `a`-to-`b` path). -/
theorem claim_C1_shortest_path (g : Graph) (a b : Nat) (hab : a ≠ b)
    (hreach : ∃ l, isPathFrom g a b l) :
    ∃ p, find_separation_path a b g = some p ∧ isPathFrom g a b p ∧
      ∀ l, isPathFrom g a b l → p.length ≤ l.length := by
  rcases find_separation_path_spec g a b hab with ⟨f, hf, hp, -, hmin⟩ | ⟨-, hnp⟩
  · exact ⟨f, hf, hp, hmin⟩
  · exact absurd hreach hnp

theorem claim_C1_shortest_path_witness :
    ∃ p, find_separation_path 1 3 [(1, [2]), (2, [1, 3]), (3, [2])] = some p ∧
      isPathFrom [(1, [2]), (2, [1, 3]), (3, [2])] 1 3 p ∧
      ∀ l, isPathFrom [(1, [2]), (2, [1, 3]), (3, [2])] 1 3 l → p.length ≤ l.length :=
  claim_C1_shortest_path [(1, [2]), (2, [1, 3]), (3, [2])] 1 3 (by decide)
    ⟨[1, 2, 3], by decide⟩

/-- C2: for every adjacency structure and endpoints (the distinct-endpoint
case of the claim, and degenerately also equal endpoints),
`find_separation_path` terminates and returns `None` exactly when `b` is
not reachable from `a`; conversely it returns `None` only when no path
exists. -/
theorem claim_C2_none_iff_unreachable (g : Graph) (a b : Nat) :
    find_separation_path a b g = none ↔ ¬ ∃ l, isPathFrom g a b l := by
  by_cases hab : a = b
  · subst hab
    constructor
    · intro h
      rw [find_separation_path, if_pos rfl] at h
      simp at h
    · intro h
      exact absurd ⟨[a], isPathFrom_single g a⟩ h
  · rcases find_separation_path_spec g a b hab with ⟨f, hf, hp, -, -⟩ | ⟨h1, h2⟩
    · constructor
      · intro h
        rw [h] at hf
        simp at hf
      · intro h
        exact absurd ⟨f, hp⟩ h
    · exact ⟨fun _ => h2, fun _ => h1⟩

/-- C3: `find_separation_path p p g` returns the single-element path `[p]`
for every player id and every graph — including graphs with no entry for
`p` — via the equal-endpoint short-circuit, which never touches the
adjacency structure. -/
theorem claim_C3_self_path (p : Nat) (g : Graph) :
    find_separation_path p p g = some [p] := by
  rw [find_separation_path, if_pos rfl]

/-- C4: after `load_data` processes every teammate row `(a, b)`, `b` is in
the adjacency set of `a` and `a` is in the adjacency set of `b`, and the
stats index holds entries for both orderings `(a, b)` and `(b, a)` with the
same payload. -/
theorem claim_C4_symmetry (rows : List TeammateRow) (r : TeammateRow)
    (hr : r ∈ rows) :
    r.teammate_player_id ∈ graphGet (buildTeammateGraph rows).1 r.player_id ∧
    r.player_id ∈ graphGet (buildTeammateGraph rows).1 r.teammate_player_id ∧
    ∃ S, statsGet (buildTeammateGraph rows).2 (r.player_id, r.teammate_player_id)
        = some S ∧
      statsGet (buildTeammateGraph rows).2 (r.teammate_player_id, r.player_id)
        = some S := by
  obtain ⟨h1, h2, h3⟩ := buildLoop_processed rows ([], []) r hr
  have hsym := foldl_statsSymm rows ([], []) (fun a b => rfl)
  unfold buildTeammateGraph
  refine ⟨h1, h2, ?_⟩
  obtain ⟨S, hS⟩ := Option.isSome_iff_exists.mp h3
  refine ⟨S, hS, ?_⟩
  rw [← hsym r.player_id r.teammate_player_id]
  exact hS

theorem claim_C4_symmetry_witness :
    (2 ∈ graphGet (buildTeammateGraph [⟨1, 2, some 90, some 3⟩]).1 1) ∧
    (1 ∈ graphGet (buildTeammateGraph [⟨1, 2, some 90, some 3⟩]).1 2) ∧
    ∃ S, statsGet (buildTeammateGraph [⟨1, 2, some 90, some 3⟩]).2 (1, 2) = some S ∧
      statsGet (buildTeammateGraph [⟨1, 2, some 90, some 3⟩]).2 (2, 1) = some S :=
  claim_C4_symmetry [⟨1, 2, some 90, some 3⟩] ⟨1, 2, some 90, some 3⟩
    (List.mem_singleton_self _)

/-- C5: whenever `get_random_quiz_players` returns an accepted result (one
carrying a path), the path's degree count (length minus 1) lies within the
resolved difficulty profile's inclusive `[min_degrees, max_degrees]`
range. -/
theorem claim_C5_bounds (display_names : List String)
    (display_to_id : String → Option Nat) (g : Graph) (difficulty : String)
    (draws : Nat → Nat × Nat) (p1 p2 : Option String) (path : List Nat)
    (h : get_random_quiz_players display_names display_to_id g difficulty draws
      = Except.ok (p1, p2, some path)) :
    (difficultySettings difficulty).min_degrees ≤ path.length - 1 ∧
      path.length - 1 ≤ (difficultySettings difficulty).max_degrees := by
  simp only [get_random_quiz_players] at h
  exact quizAttemptLoop_bounds _ _ _ _ _ _ MAX_QUIZ_ATTEMPTS 0 p1 p2 path h

theorem claim_C5_bounds_witness :
    2 ≤ ([1, 2, 3] : List Nat).length - 1 ∧ ([1, 2, 3] : List Nat).length - 1 ≤ 3 :=
  claim_C5_bounds ["A", "B", "C"]
    (fun s => if s = "A" then some 1 else if s = "B" then some 2
      else if s = "C" then some 3 else none)
    [(1, [2]), (2, [1, 3]), (3, [2])] "Easy" (fun _ => (0, 2))
    (some "A") (some "C") [1, 2, 3] rfl

/-- C6 counterexample: on an empty candidate pool `random.choice` raises
(`Except.error ()` in the embedding), so the claim's promise of a
`(None, None, None)` return without raising fails for the empty pool. -/
theorem claim_C6_counterexample :
    get_random_quiz_players [] (fun _ => none) [] "Medium" (fun _ => (0, 0))
      = Except.error () := rfl

/-- C6 (amended with a nonempty candidate pool): for every difficulty
profile, nonempty display list, and adjacency structure — including
profiles no pair can satisfy — `get_random_quiz_players` never raises: it
returns either the failure triple `(None, None, None)` or a complete
success triple; and its result only depends on the draws of the at most
`MAX_QUIZ_ATTEMPTS` sampling iterations. -/
theorem claim_C6_terminates (display_names : List String)
    (display_to_id : String → Option Nat) (g : Graph) (difficulty : String)
    (draws : Nat → Nat × Nat) (hne : display_names ≠ []) :
    (∃ r, get_random_quiz_players display_names display_to_id g difficulty draws
        = Except.ok r ∧
      (r = (none, none, none) ∨ ∃ a b p, r = (some a, some b, some p))) ∧
    (∀ draws2, (∀ j, j < MAX_QUIZ_ATTEMPTS → draws2 j = draws j) →
      get_random_quiz_players display_names display_to_id g difficulty draws2
        = get_random_quiz_players display_names display_to_id g difficulty draws) := by
  have hpool : (if (eligiblePlayers display_names display_to_id g
      (difficultySettings difficulty).min_teammates).length < MIN_ELIGIBLE_PLAYERS
      then display_names
      else eligiblePlayers display_names display_to_id g
        (difficultySettings difficulty).min_teammates) ≠ [] := by
    split
    · exact hne
    · rename_i hlen
      intro hempty
      rw [hempty] at hlen
      simp [MIN_ELIGIBLE_PLAYERS] at hlen
  constructor
  · simp only [get_random_quiz_players]
    exact quizAttemptLoop_ok _ _ _ _ _ _ hpool MAX_QUIZ_ATTEMPTS 0
  · intro draws2 hdr
    simp only [get_random_quiz_players]
    exact quizAttemptLoop_draws_congr _ _ _ _ _ _ _ MAX_QUIZ_ATTEMPTS 0
      (fun j hj1 hj2 => hdr j (by omega))

theorem claim_C6_terminates_witness :
    (∃ r, get_random_quiz_players ["A"] (fun _ => none) [] "Hard" (fun _ => (0, 0))
        = Except.ok r ∧
      (r = (none, none, none) ∨ ∃ a b p, r = (some a, some b, some p))) ∧
    (∀ draws2, (∀ j, j < MAX_QUIZ_ATTEMPTS → draws2 j = (fun _ => ((0 : Nat), (0 : Nat))) j) →
      get_random_quiz_players ["A"] (fun _ => none) [] "Hard" draws2
        = get_random_quiz_players ["A"] (fun _ => none) [] "Hard" (fun _ => (0, 0))) :=
  claim_C6_terminates ["A"] (fun _ => none) [] "Hard" (fun _ => (0, 0)) (by decide)

/-- C7 counterexample: `"X "` carries no trailing numeric parenthetical,
yet `_clean_player_name` changes it (the final `strip()` removes the
trailing space), refuting the unchanged-half of the claim as stated. -/
theorem claim_C7_counterexample :
    hasTrailingNumParen "X " = false ∧ _clean_player_name "X " ≠ "X " := by
  decide

/-- C7 (amended): name cleaning removes a trailing parenthesized numeric
disambiguator — `base ++ " (" ++ digits ++ ")"` cleans to the stripped
`base` — and every name with no trailing numeric parenthetical *and no
outer whitespace* (the whitespace qualification being forced by the
`strip()` call) is returned unchanged. -/
theorem claim_C7_name_cleaning :
    (∀ base ds : String, ds ≠ "" → (∀ c ∈ ds.data, isDigitChar c) →
      _clean_player_name (base ++ " (" ++ ds ++ ")") = pyStrip base) ∧
    (∀ s : String, hasTrailingNumParen s = false → pyStrip s = s →
      _clean_player_name s = s) :=
  ⟨clean_removes_suffix, clean_unchanged⟩

theorem claim_C7_name_cleaning_witness :
    _clean_player_name ("Miroslav Klose" ++ " (" ++ "10" ++ ")")
        = pyStrip "Miroslav Klose" ∧
    _clean_player_name "Ronaldinho" = "Ronaldinho" :=
  ⟨claim_C7_name_cleaning.1 "Miroslav Klose" "10" (by decide) (by decide),
    claim_C7_name_cleaning.2 "Ronaldinho" (by decide) (by decide)⟩

/-- C8: `build_hint_text` is monotone and append-only in the hint level,
for every player id whose resolved name is nonempty (matching the
`correct_name[0]` access): every level builds, each level's body is a
prefix of the next level's body, each level increment below the last of
the `MAX_HINT_LEVELS` levels (`l + 1 < MAX_HINT_LEVELS`) appends exactly
one attribute in the fixed order nationality → club → position → age, and
level 0 yields the first-letter plus name-length line. -/
theorem claim_C8_hints_append_only (pid : Nat) (names : Nat → Option String)
    (details : Nat → Option PlayerDetail)
    (hname : (names pid).getD "Unknown" ≠ "") :
    (∀ l, ∃ hd body, build_hint_text pid names details l = some (hd, body)) ∧
    (∀ l hd1 body1 hd2 body2,
      build_hint_text pid names details l = some (hd1, body1) →
      build_hint_text pid names details (l + 1) = some (hd2, body2) →
      (∃ s, body2 = body1 ++ s) ∧
      (l + 1 < MAX_HINT_LEVELS →
        body2 = body1 ++ "<br>" ++ hintLine (details pid) l)) ∧
    (∀ hd body, build_hint_text pid names details 0 = some (hd, body) →
      body = level1Line ((names pid).getD "Unknown")) := by
  have hbody : ∀ l hd body, build_hint_text pid names details l = some (hd, body) →
      body = joinBr (hintList ((names pid).getD "Unknown") (details pid) l) := by
    intro l hd body h
    obtain ⟨hd2, h2⟩ := build_hint_text_eq pid names details l hname
    rw [h] at h2
    simp at h2
    exact h2.2
  refine ⟨?_, ?_, ?_⟩
  · intro l
    obtain ⟨hd2, h2⟩ := build_hint_text_eq pid names details l hname
    exact ⟨hd2, _, h2⟩
  · intro l hd1 body1 hd2 body2 h1 h2
    have hb1 := hbody l hd1 body1 h1
    have hb2 := hbody (l + 1) hd2 body2 h2
    subst hb1
    subst hb2
    rcases l with _ | _ | _ | _ | n
    · rw [hintList_zero, hintList_one]
      exact ⟨⟨"<br>" ++ nationalityLine (details pid), by
        simp [joinBr, String.append_assoc]⟩, fun _ => rfl⟩
    · rw [hintList_one, hintList_two]
      exact ⟨⟨"<br>" ++ clubLine (details pid), by
        simp [joinBr, String.append_assoc]⟩, fun _ => by
        simp [joinBr, hintLine, String.append_assoc]⟩
    · rw [hintList_two, hintList_three]
      exact ⟨⟨"<br>" ++ positionLine (details pid), by
        simp [joinBr, String.append_assoc]⟩, fun _ => by
        simp [joinBr, hintLine, String.append_assoc]⟩
    · rw [show (3 : Nat) + 1 = 0 + 4 from rfl, hintList_three, hintList_four_plus]
      exact ⟨⟨"<br>" ++ ageLine (details pid), by
        simp [joinBr, String.append_assoc]⟩, fun _ => by
        simp [joinBr, hintLine, String.append_assoc]⟩
    · have he : n + 4 + 1 = (n + 1) + 4 := by omega
      rw [he, hintList_four_plus, hintList_four_plus]
      refine ⟨⟨"", (String.append_empty _).symm⟩, ?_⟩
      intro hlt
      exfalso
      simp [MAX_HINT_LEVELS] at hlt
      omega
  · intro hd body h
    rw [hbody 0 hd body h, hintList_zero]
    rfl

theorem claim_C8_hints_append_only_witness :
    (∀ l, ∃ hd body,
      build_hint_text 1 (fun _ => some "Messi") (fun _ => none) l = some (hd, body)) ∧
    (∀ l hd1 body1 hd2 body2,
      build_hint_text 1 (fun _ => some "Messi") (fun _ => none) l = some (hd1, body1) →
      build_hint_text 1 (fun _ => some "Messi") (fun _ => none) (l + 1)
        = some (hd2, body2) →
      (∃ s, body2 = body1 ++ s) ∧
      (l + 1 < MAX_HINT_LEVELS →
        body2 = body1 ++ "<br>" ++ hintLine ((fun _ => none) 1) l)) ∧
    (∀ hd body,
      build_hint_text 1 (fun _ => some "Messi") (fun _ => none) 0 = some (hd, body) →
      body = level1Line ((( fun _ => some "Messi") 1).getD "Unknown")) :=
  claim_C8_hints_append_only 1 (fun _ => some "Messi") (fun _ => none) (by decide)

/-- C9: a wrong guess returns `False` and leaves the whole quiz session
state unchanged — revealed flags, score, total and every other field. -/
theorem claim_C9_wrong_guess_frame (guess_id correct_id position : Nat)
    (st : QuizState) (h : guess_id ≠ correct_id) :
    check_guess guess_id correct_id position st = (false, st) := by
  unfold check_guess
  rw [if_neg h]

theorem claim_C9_wrong_guess_frame_witness :
    check_guess 1 2 0
        ⟨true, 3, 4, some [1, 2], [true, false, true], 1, [(1, 2)], some "A", some "B", "Medium"⟩
      = (false,
        ⟨true, 3, 4, some [1, 2], [true, false, true], 1, [(1, 2)], some "A", some "B", "Medium"⟩) :=
  claim_C9_wrong_guess_frame 1 2 0 _ (by decide)

/-- C10: every non-`None` path returned by `find_separation_path` is a
simple path: no player id occurs twice, its first element is the start id
and its last element is the end id. -/
theorem claim_C10_simple_path (g : Graph) (a b : Nat) (p : List Nat)
    (h : find_separation_path a b g = some p) :
    p.Nodup ∧ p.head? = some a ∧ p.getLast? = some b := by
  by_cases hab : a = b
  · subst hab
    rw [find_separation_path, if_pos rfl] at h
    simp only [Option.some.injEq] at h
    rw [← h]
    simp
  · rcases find_separation_path_spec g a b hab with ⟨f, hf, hp, hnd, -⟩ | ⟨h1, -⟩
    · rw [hf] at h
      simp only [Option.some.injEq] at h
      rw [← h]
      exact ⟨hnd, hp.1, hp.2.1⟩
    · rw [h1] at h
      simp at h

theorem claim_C10_simple_path_witness :
    ([1, 2] : List Nat).Nodup ∧ ([1, 2] : List Nat).head? = some 1 ∧
      ([1, 2] : List Nat).getLast? = some 2 :=
  claim_C10_simple_path [(1, [2])] 1 2 [1, 2] (by decide)

end SepGame
